import Mathlib

set_option maxRecDepth 100000

/-!
Verification of the NCO semantic-search service (backend/inference.py and
backend/main.py) against its natural-language specification.

The Python code is shallowly embedded: pure pipeline logic is translated to
executable Lean definitions over `List` and `ℚ`; the external components
(the sentence-transformer embedding composed with the FAISS index,
`np.exp`, `difflib.get_close_matches`, `langdetect`, the translation
service) are oracle parameters of the model, constrained only where the
client code relies on a property of theirs.  File/database side effects are
modelled as explicit flags on the returned outcome.
-/

namespace NCO

/-! ## Character-list string utilities

Python string operations (`str.split()`, `str.lower()`, `in`, `str.replace`)
are re-implemented structurally over `List Char` so that every definition
evaluates inside the kernel.  All catalog data handled by the claims is
ASCII, where `Char.toLower` agrees with Python `str.lower`. -/

/-- `str.lower()` (ASCII). -/
def lowerStr (s : String) : String := String.mk (s.data.map Char.toLower)

/-- Helper for `pysplit`: split on whitespace runs, discarding empties,
`cur` is the reversed current word. -/
def splitWsAux : List Char → List Char → List (List Char)
  | [], cur => if cur = [] then [] else [cur.reverse]
  | c :: rest, cur =>
    if c.isWhitespace then
      if cur = [] then splitWsAux rest [] else cur.reverse :: splitWsAux rest []
    else splitWsAux rest (c :: cur)

/-- Python `s.split()` with no separator: split on whitespace runs. -/
def pysplit (s : String) : List String := (splitWsAux s.data []).map String.mk

/-- Is `p` a prefix of `l`? -/
def isPrefixList : List Char → List Char → Bool
  | [], _ => true
  | _ :: _, [] => false
  | a :: as, b :: bs => a = b && isPrefixList as bs

/-- Does `l` contain `p` as a contiguous substring?  (Python `p in s`.) -/
def containsList (p : List Char) : List Char → Bool
  | [] => p = []
  | c :: rest => isPrefixList p (c :: rest) || containsList p rest

/-- Python `needle in haystack` for strings. -/
def containsSub (haystack needle : String) : Bool :=
  containsList needle.data haystack.data

/-- Fuelled worker for `replaceStr`; one unit of fuel is spent per emitted
position, and each step consumes at least one input character, so
`fuel = s.length` always suffices. -/
def replaceGo (pat rep : List Char) : ℕ → List Char → List Char
  | 0, s => s
  | _, [] => []
  | fuel + 1, c :: rest =>
    if pat ≠ [] ∧ isPrefixList pat (c :: rest) then
      rep ++ replaceGo pat rep fuel ((c :: rest).drop pat.length)
    else c :: replaceGo pat rep fuel rest

/-- Python `s.replace(pat, rep)` (left-to-right, non-overlapping); the model
is only used with non-empty `pat`. -/
def replaceStr (s pat rep : String) : String :=
  String.mk (replaceGo pat.data rep.data s.data.length s.data)

/-- Python code-point lexicographic string order (used by `sorted`). -/
def lexLe : List Char → List Char → Bool
  | [], _ => true
  | _ :: _, [] => false
  | a :: as, b :: bs =>
    if a.toNat < b.toNat then true
    else if b.toNat < a.toNat then false
    else lexLe as bs

/-- String comparison as Python's `<=` on strings. -/
def strLe (a b : String) : Bool := lexLe a.data b.data

/-- `list(set(xs))`: duplicate removal.  CPython's set iteration order is
unspecified; the model fixes the first-occurrence order, and no verified
statement depends on the choice. -/
def pyDedup (l : List String) : List String :=
  l.foldl (fun acc x => if x ∈ acc then acc else acc ++ [x]) []

/-! ## Data model (inference.py) -/

/-- Hierarchy block of an occupation record. -/
structure Hierarchy where
  division_code : String
  sub_division_code : String
  minor_group_code : String
  unit_group_code : String
  deriving DecidableEq, Repr

/-- An occupation record as loaded from the catalog JSON. -/
structure Occupation where
  nco_code : String
  title : String
  description : String
  synonyms : List String
  examples : List String
  hierarchy : Option Hierarchy
  breadcrumb : Option String
  deriving DecidableEq, Repr

/-- Stand-in record for out-of-range indexing (the Python code would raise;
all theorems below restrict to valid index oracles). -/
def defaultOcc : Occupation :=
  { nco_code := "", title := "", description := "", synonyms := [],
    examples := [], hierarchy := none, breadcrumb := none }

/-- One search result dict as built by `NCOEngine.search` and returned to
`main.py`. -/
structure SearchResult where
  nco_code : String
  title : String
  description : String
  score : ℚ
  confidence : ℚ
  matched_synonyms : List String
  hierarchy : Option Hierarchy
  breadcrumb : Option String
  deriving DecidableEq, Repr

/-- The engine: the catalog plus the opaque externals.
`idxSearch q m` models `self.index.search(self.embed_query(q), m)`:
the rows `(faiss_idx, score)` returned by FAISS for the embedded query.
`e` models `np.exp`.  `closeMatches q titles` models
`difflib.get_close_matches(q, titles, n=5, cutoff=0.6)`. -/
structure NCOEngine where
  occupations : List Occupation
  idxSearch : String → ℕ → List (Int × ℚ)
  e : ℚ → ℚ
  closeMatches : String → List String → List String

namespace NCOEngine

/-- `self.num_occupations`. -/
def num_occupations (E : NCOEngine) : ℕ := E.occupations.length

/-- `self.code_lookup = {occ["nco_code"]: occ for occ in self.occupations}`.
A Python dict comprehension keeps the LAST binding for a repeated key. -/
def code_lookup (E : NCOEngine) (c : String) : Option Occupation :=
  E.occupations.reverse.find? (fun o => o.nco_code = c)

/-- `self.title_index[title_lc] = occ` inside the build loop: again the
last record with a given lowercased title wins. -/
def title_index (E : NCOEngine) (t : String) : Option Occupation :=
  E.occupations.reverse.find? (fun o => lowerStr o.title = t)

/-- Keys of `self.title_index` in Python dict order (first insertion keeps
the key's position even when the value is overwritten). -/
def title_keys (E : NCOEngine) : List String :=
  pyDedup (E.occupations.map (fun o => lowerStr o.title))

/-- The words appended for one record while building `self.keyword_index`:
title words first, then each synonym's words. -/
def keywordEntries (occ : Occupation) : List String :=
  pysplit (lowerStr occ.title) ++
    (occ.synonyms.map (fun syn => pysplit (lowerStr syn))).flatten

/-- `self.keyword_index[w]`: the records appended for word `w`, in catalog
order, one entry per appended occurrence (a record appears once per time
`w` occurs among its title/synonym words). -/
def keyword_index (E : NCOEngine) (w : String) : List Occupation :=
  (E.occupations.map
      (fun occ => ((keywordEntries occ).filter (fun x => x = w)).map
        (fun _ => occ))).flatten

/-- The inline `SYNONYM_BANK` class attribute. -/
def SYNONYM_BANK : List (String × List String) :=
  [("tailor", ["sewing machine operator", "garment maker", "seamstress"]),
   ("driver", ["vehicle operator", "chauffeur", "transport operator"]),
   ("teacher", ["educator", "instructor", "tutor", "faculty"]),
   ("it professional", ["software developer", "programmer", "coder"]),
   ("healthcare worker", ["medical professional", "health practitioner"]),
   ("coolie", ["porter", "loader", "cargo handler"]),
   ("mali", ["gardener", "horticulturist", "landscaper"])]

/-- `_expand_query_with_synonyms`: the original query followed by each
lowercased substitution of a bank term occurring in the query, deduplicated
(`list(set(variants))`). -/
def expand_query_with_synonyms (query : String) : List String :=
  let lowerQ := lowerStr query
  pyDedup (query ::
    (SYNONYM_BANK.map (fun ts =>
      if containsSub lowerQ ts.1 then
        ts.2.map (fun s => replaceStr lowerQ ts.1 s)
      else [])).flatten)

/-- Tokens used by `_keyword_fallback`:
`[w.lower() for w in query.split() if len(w) > 2]` — whitespace split,
keep tokens longer than 2 characters, then lowercase. -/
def pyTokens (query : String) : List String :=
  ((pysplit query).filter (fun w => 2 < w.length)).map lowerStr

/-- One step of `scores.setdefault(code, 0); scores[code] += 1` on an
insertion-ordered association list. -/
def bump : List (String × ℕ) → String → List (String × ℕ)
  | [], c => [(c, 1)]
  | (c', n) :: rest, c =>
    if c' = c then (c', n + 1) :: rest else (c', n) :: bump rest c

/-- The `scores` dict after the two nested loops of `_keyword_fallback`. -/
def tallyScores (E : NCOEngine) (words : List String) : List (String × ℕ) :=
  words.foldl
    (fun acc w => (E.keyword_index w).foldl (fun a occ => bump a occ.nco_code) acc)
    []

/-- The comparison key of `sorted(scores.items(), key=lambda x: (-x[1], x[0]))`:
count descending, then code ascending. -/
def rankedBefore (a b : String × ℕ) : Bool :=
  b.2 < a.2 || (a.2 = b.2 && strLe a.1 b.1)

/-- Insert into a list sorted by `rankedBefore`. -/
def insertRanked (x : String × ℕ) : List (String × ℕ) → List (String × ℕ)
  | [] => [x]
  | y :: ys => if rankedBefore x y then x :: y :: ys else y :: insertRanked x ys

/-- `sorted(-, key=lambda x: (-x[1], x[0]))`.  The key is injective on the
dict items (codes are unique keys), so any correct sort produces the same
list as CPython's. -/
def rankSort (l : List (String × ℕ)) : List (String × ℕ) :=
  l.foldr insertRanked []

/-- `_keyword_fallback`. -/
def keyword_fallback (E : NCOEngine) (query : String) : List SearchResult :=
  let ranked := (rankSort (tallyScores E (pyTokens query))).take 10
  ranked.filterMap (fun cs =>
    (E.code_lookup cs.1).map (fun occ =>
      { nco_code := cs.1, title := occ.title, description := occ.description,
        score := (cs.2 : ℚ), confidence := 1/4, matched_synonyms := [],
        hierarchy := occ.hierarchy, breadcrumb := occ.breadcrumb }))

/-- `_fuzzy_fallback`: `difflib.get_close_matches` is the `closeMatches`
oracle; each close title is looked up in `title_index` (the `none` branch is
unreachable when the oracle returns only given titles, as difflib does). -/
def fuzzy_fallback (E : NCOEngine) (query : String) : List SearchResult :=
  (E.closeMatches (lowerStr query) E.title_keys).filterMap (fun t =>
    (E.title_index t).map (fun occ =>
      { nco_code := occ.nco_code, title := occ.title,
        description := occ.description, score := 0, confidence := 1/5,
        matched_synonyms := [], hierarchy := occ.hierarchy,
        breadcrumb := occ.breadcrumb }))

/-- `np.max` over the scores row (raises on an empty row in numpy; the
model returns 0 there, and every theorem treats the empty row separately). -/
def npmax : List ℚ → ℚ
  | [] => 0
  | x :: xs => xs.foldl max x

/-- `exp_scores = np.exp(scores - np.max(scores))`;
`softmax_scores = exp_scores / np.sum(exp_scores) if np.sum(exp_scores) else scores`. -/
def softmaxList (e : ℚ → ℚ) (scores : List ℚ) : List ℚ :=
  let m := npmax scores
  let exps := scores.map (fun s => e (s - m))
  let tot := exps.sum
  if tot ≠ 0 then exps.map (fun x => x / tot) else scores

/-- `zip(indices[0], scores, softmax_scores)`. -/
def zipRows : List (Int × ℚ) → List ℚ → List (Int × ℚ × ℚ)
  | [], _ => []
  | _, [] => []
  | r :: rs, c :: cs => (r.1, r.2, c) :: zipRows rs cs

/-- The hierarchy filter of the result-building loop: a row is skipped when
a (truthy) filter is set and the record's hierarchy field differs. -/
def filterPass (flt : Option String) (fieldVal : Option String) : Bool :=
  match flt with
  | none => true
  | some s => if s = "" then true else fieldVal = some s

/-- The result dict built for one retained row. -/
def mkResult (occ : Occupation) (score conf : ℚ) : SearchResult :=
  { nco_code := occ.nco_code, title := occ.title,
    description := occ.description, score := score, confidence := conf,
    matched_synonyms := [], hierarchy := occ.hierarchy,
    breadcrumb := occ.breadcrumb }

/-- The inner result-building loop of `NCOEngine.search`: skip `-1` rows,
apply the hierarchy filters, append, and break once `k` results are
gathered (the length test runs after the append, as in the source). -/
def buildTemp (occs : List Occupation) (k : ℕ) (df mf : Option String) :
    List (Int × ℚ × ℚ) → List SearchResult → List SearchResult
  | [], acc => acc
  | row :: rest, acc =>
    if row.1 < 0 then buildTemp occs k df mf rest acc
    else
      let occ := occs.getD row.1.toNat defaultOcc
      if filterPass df (occ.hierarchy.map (fun h => h.division_code)) ∧
          filterPass mf (occ.hierarchy.map (fun h => h.minor_group_code)) then
        let acc' := acc ++ [mkResult occ row.2.1 row.2.2]
        if k ≤ acc'.length then acc' else buildTemp occs k df mf rest acc'
      else buildTemp occs k df mf rest acc

/-- One embedding-search attempt for one query variant (the body of the
fallback loop up to `temp_results`). -/
def stageA (E : NCOEngine) (q : String) (k : ℕ) (df mf : Option String) :
    List SearchResult :=
  let rows := E.idxSearch q (min (k * 3) E.num_occupations)
  let confs := softmaxList E.e (rows.map Prod.snd)
  buildTemp E.occupations k df mf (zipRows rows confs) []

/-- The variant loop of `NCOEngine.search`.  `query` is the original query
(the single element of `candidate_queries`); an occurrence of it at
`attempt ≠ 0` is skipped.  A variant whose top confidence reaches 0.5
breaks with its results; otherwise only an empty `results` is replaced. -/
def searchLoop (E : NCOEngine) (k : ℕ) (df mf : Option String)
    (query : String) :
    List String → ℕ → List SearchResult → List SearchResult
  | [], _, results => results
  | q :: rest, attempt, results =>
    if attempt ≠ 0 ∧ q = query then searchLoop E k df mf query rest (attempt + 1) results
    else
      match stageA E q k df mf with
      | [] => searchLoop E k df mf query rest (attempt + 1) results
      | t :: ts =>
        if (1 : ℚ)/2 ≤ t.confidence then (t :: ts).take k
        else
          searchLoop E k df mf query rest (attempt + 1)
            (if results = [] then (t :: ts).take k else results)

/-- `results` after the whole variant loop (lines 211–264 of inference.py). -/
def vectorStage (E : NCOEngine) (query : String) (k : ℕ)
    (df mf : Option String) : List SearchResult :=
  searchLoop E k df mf query (query :: NCOEngine.expand_query_with_synonyms query) 0 []

/-- `if not results or results[0]["confidence"] < 0.3:` — the condition
guarding the keyword/fuzzy fallback stage. -/
def fallbackGate : List SearchResult → Bool
  | [] => true
  | r :: _ => decide (r.confidence < 3/10)

/-- The fallback merge loop: append a candidate when its code is unseen and
fewer than `k` results are held. -/
def mergeFallback (k : ℕ) :
    List SearchResult → List String → List SearchResult → List SearchResult
  | [], _, results => results
  | r :: rest, codes, results =>
    if r.nco_code ∉ codes ∧ results.length < k then
      mergeFallback k rest (codes ++ [r.nco_code]) (results ++ [r])
    else mergeFallback k rest codes results

/-- The final `matched_synonyms` annotation applied to every result. -/
def annotate (E : NCOEngine) (query : String) (res : SearchResult) :
    SearchResult :=
  match E.code_lookup res.nco_code with
  | none => res
  | some occ =>
    let ql := lowerStr query
    let m1 := if containsSub (lowerStr occ.title) ql then [occ.title] else []
    let m2 := occ.synonyms.filter (fun syn =>
      containsSub (lowerStr syn) ql || containsSub ql (lowerStr syn))
    { res with matched_synonyms := (m1 ++ m2).take 3 }

/-- `NCOEngine.search` (the live pipeline before the unreachable dead copy
after the `return`): variant loop, conditional keyword/fuzzy fallback
merge, then annotation.  Audit logging is effect-free for the result. -/
def search (E : NCOEngine) (query : String) (k : ℕ)
    (df mf : Option String) : List SearchResult :=
  let results := vectorStage E query k df mf
  let merged :=
    if fallbackGate results then
      mergeFallback k (keyword_fallback E query ++ fuzzy_fallback E query)
        (results.map (fun r => r.nco_code)) results
    else results
  merged.map (annotate E query)

end NCOEngine

/-! ## The `/search` endpoint (main.py) -/

/-- The configuration read from the environment at import time. -/
structure Config where
  LOWCONF_TOPSIM : ℚ := 48/100
  LOWCONF_SOFTMAX : ℚ := 55/100
  ENABLE_TRANSLATION : Bool := false

/-- Process-global state relevant to `/search`, plus the external language
and translation services as oracles: `detectLang` models
`engine.detect_language`, `enhance` models
`translation_service.enhance_low_confidence_query` (returning
`(suggestions, alternatives)`), `translateQuery` models
`translation_service.translate_query(·, ·, "en")`. -/
structure ServerState where
  is_reindexing : Bool
  engine : Option NCOEngine
  detectLang : String → String
  enhance : String → String → List String × List String
  translateQuery : String → String → String

/-- A validated `/search` request body (pydantic enforces
`1 ≤ len(query) ≤ 500` and `1 ≤ k ≤ 20` before the handler runs). -/
structure SearchRequest where
  query : String
  k : ℕ
  language : Option String

/-- An HTTP error response raised by the handler. -/
structure HttpError where
  status : ℕ
  detail : String
  deriving DecidableEq, Repr

/-- The JSON body of a successful `/search` response. -/
structure SearchResponse where
  results : List SearchResult
  low_confidence : Bool
  language : String
  translated : Bool
  suggestions : Option (List String)
  alternatives : Option (List String)
  deriving DecidableEq, Repr

/-- The low-confidence computation of the handler (lines 249–258):
`True` when there are no results, otherwise
`top_score < LOWCONF_TOPSIM or top_confidence < LOWCONF_SOFTMAX`. -/
def lowConf (cfg : Config) : List SearchResult → Bool
  | [] => true
  | r :: _ =>
    decide (r.score < cfg.LOWCONF_TOPSIM) || decide (r.confidence < cfg.LOWCONF_SOFTMAX)

/-- The `/search` handler.  Faithful points: the `is_reindexing` check runs
before anything else and raises 503; `language = search_request.language or
detected`, with Python falsiness for the empty string; in the translation
branch, `translated_results[0]["score"] > top_score` reads `top_score`,
which was never assigned when `results` was empty, so that path raises
`UnboundLocalError` (modelled as a 500).  Log writes do not affect the
response and are omitted. -/
def searchHandler (cfg : Config) (st : ServerState) (req : SearchRequest) :
    Except HttpError SearchResponse :=
  if st.is_reindexing then
    .error ⟨503, "Service is reindexing, please try again in a moment"⟩
  else
    match st.engine with
    | none => .error ⟨503, "Engine not initialized"⟩
    | some E =>
      let detected := st.detectLang req.query
      let language :=
        match req.language with
        | some l => if l = "" then detected else l
        | none => detected
      let results := E.search req.query req.k none none
      let lc := lowConf cfg results
      if lc then
        let sa := st.enhance req.query language
        if cfg.ENABLE_TRANSLATION ∧ language ≠ "en" then
          let tq := st.translateQuery req.query language
          if tq ≠ req.query then
            let tr := E.search tq req.k none none
            match tr, results with
            | [], _ =>
              .ok ⟨results, lc, language, false, some sa.1, some sa.2⟩
            | _ :: _, [] => .error ⟨500, "UnboundLocalError: top_score"⟩
            | t :: _, r :: _ =>
              if r.score < t.score then
                .ok ⟨tr, lowConf cfg tr, language, true, some sa.1, some sa.2⟩
              else .ok ⟨results, lc, language, false, some sa.1, some sa.2⟩
          else .ok ⟨results, lc, language, false, some sa.1, some sa.2⟩
        else .ok ⟨results, lc, language, false, some sa.1, some sa.2⟩
      else .ok ⟨results, lc, language, false, none, none⟩

/-! ## The `/admin/update-synonyms` endpoint (main.py) -/

/-- One element of the request's `updates`; pydantic's
`Optional[List[str]] = None` and an empty list behave identically under the
handler's truthiness tests, so both are modelled as `[]`. -/
structure SynonymUpdate where
  nco_code : String
  add : List String
  remove : List String

/-- The add phase for one update (lines 600–608): returns the new synonym
set together with the set actually added (`∅` when nothing changed, in
which case `updated_count` is not incremented).  The record's synonym list
is round-tripped through a Python `set`, so it is modelled as a
`Finset String`. -/
def applyAdd (syns : Finset String) (add : List String) :
    Finset String × Finset String :=
  if add = [] then (syns, ∅)
  else
    let newSyns := add.toFinset \ syns
    if newSyns = ∅ then (syns, ∅) else (syns ∪ newSyns, newSyns)

/-- The remove phase for one update (lines 610–619). -/
def applyRemove (syns : Finset String) (rem : List String) :
    Finset String × Finset String :=
  if rem = [] then (syns, ∅)
  else
    let removed := rem.toFinset ∩ syns
    if removed = ∅ then (syns, ∅) else (syns \ removed, removed)

/-- The catalog as seen by this endpoint: each record's code and synonym
set (the other fields are never read or written here). -/
abbrev SynCatalog := List (String × Finset String)

/-- `code_map` lookup: a dict built by comprehension keeps the last entry
for a duplicated code. -/
def lookupCode (catalog : SynCatalog) (c : String) : Option (Finset String) :=
  (catalog.reverse.find? (fun p => p.1 = c)).map Prod.snd

/-- Writing the mutated record back into the list.  The Python dict holds a
reference into the loaded list, so with unique codes this is exactly the
in-place mutation; all theorems below assume unique codes (the spec's
catalog invariant). -/
def writeCode (catalog : SynCatalog) (c : String) (s : Finset String) :
    SynCatalog :=
  catalog.map (fun p => if p.1 = c then (c, s) else p)

/-- The loop over `request.updates`: returns
`(new catalog, updated_count, invalid_codes, audit_changes)` where an audit
entry `(code, added, removed)` is recorded iff the update changed the
record. -/
def runUpdates (catalog : SynCatalog) :
    List SynonymUpdate →
      SynCatalog × ℕ × List String × List (String × Finset String × Finset String)
  | [] => (catalog, 0, [], [])
  | u :: rest =>
    match lookupCode catalog u.nco_code with
    | none =>
      let r := runUpdates catalog rest
      (r.1, r.2.1, u.nco_code :: r.2.2.1, r.2.2.2)
    | some syns =>
      let a := applyAdd syns u.add
      let b := applyRemove a.1 u.remove
      let cnt := (if a.2 ≠ ∅ then 1 else 0) + (if b.2 ≠ ∅ then 1 else 0)
      let r := runUpdates (writeCode catalog u.nco_code b.1) rest
      (r.1, cnt + r.2.1, r.2.2.1,
        if a.2 ≠ ∅ ∨ b.2 ≠ ∅ then (u.nco_code, a.2, b.2) :: r.2.2.2 else r.2.2.2)

/-- The observable outcome of `/admin/update-synonyms`: the response
fields, plus whether the catalog file was rewritten and whether an audit
line was appended (both guarded by `updated_count > 0`). -/
structure UpdateOutcome where
  updated : ℕ
  invalid_codes : List String
  changes : List (String × Finset String × Finset String)
  requires_reindex : Bool
  fileWritten : Bool
  auditLogged : Bool
  newCatalog : SynCatalog

/-- The `/admin/update-synonyms` handler (lines 563–648), effects as flags. -/
def updateSynonymsHandler (catalog : SynCatalog) (updates : List SynonymUpdate) :
    UpdateOutcome :=
  let r := runUpdates catalog updates
  { updated := r.2.1, invalid_codes := r.2.2.1, changes := r.2.2.2,
    requires_reindex := decide (0 < r.2.1),
    fileWritten := decide (0 < r.2.1), auditLogged := decide (0 < r.2.1),
    newCatalog := if 0 < r.2.1 then r.1 else catalog }

/-! ## Validity assumptions on the external oracles -/

namespace NCOEngine

/-- The FAISS index returns pairwise-distinct ids, each a valid position in
the catalog (a flat index over one vector per record does exactly this;
`-1` padding rows are allowed and skipped by the loop). -/
def ValidIndex (E : NCOEngine) : Prop :=
  ∀ q m, ((E.idxSearch q m).map Prod.fst).Nodup ∧
    ∀ i ∈ (E.idxSearch q m).map Prod.fst, 0 ≤ i → i.toNat < E.occupations.length

/-- `np.exp` is strictly positive. -/
def PosExp (E : NCOEngine) : Prop := ∀ x, 0 < E.e x

/-- Catalog codes are unique (the spec's primary-key invariant). -/
def UniqueCodes (E : NCOEngine) : Prop :=
  (E.occupations.map (fun o => o.nco_code)).Nodup

end NCOEngine

/-! ## Concrete fixtures

Small engines used to instantiate theorems and exhibit counterexamples.
All of them use `e := fun _ => 1` for `np.exp`: every scenario below feeds
`e` only with the argument `0` (the raw similarities in each FAISS reply
are all equal, so `s - max s = 0` throughout), and `exp 0 = 1`, so on every
evaluated point the stand-in agrees with the true exponential. -/

/-- A minimal record constructor for fixtures. -/
def mkOcc (c t : String) (h : Option Hierarchy := none)
    (syns : List String := []) : Occupation :=
  { nco_code := c, title := t, description := "", synonyms := syns,
    examples := [], hierarchy := h, breadcrumb := none }

/-- Three records; the index always replies with all three at similarity
9/10, so every softmax weight is 1/3. -/
def E3 : NCOEngine :=
  { occupations := [mkOcc "0001.0001" "aaa", mkOcc "0002.0002" "bbb",
      mkOcc "0003.0003" "ccc"],
    idxSearch := fun _ _ => [(0, 9/10), (1, 9/10), (2, 9/10)],
    e := fun _ => 1,
    closeMatches := fun _ _ => [] }

/-- Default configuration (`LOWCONF_TOPSIM = 0.48`, `LOWCONF_SOFTMAX = 0.55`,
translation disabled). -/
def cfg0 : Config := {}

/-- A healthy serving state holding `E3`. -/
def stOk : ServerState :=
  { is_reindexing := false, engine := some E3,
    detectLang := fun _ => "en", enhance := fun _ _ => ([], []),
    translateQuery := fun _ _ => "" }

/-- The same state while a reindex is in progress: the snapshot is still
loaded (`engine` is `some`), only the flag differs. -/
def stReindex : ServerState :=
  { is_reindexing := true, engine := some E3,
    detectLang := fun _ => "en", enhance := fun _ _ => ([], []),
    translateQuery := fun _ _ => "" }

deriving instance DecidableEq for Except

/-- The concrete response produced by `stOk` on query `"qq"`, `k = 1`:
one vector result with score 9/10 and softmax confidence 1/3, flagged
low-confidence because 1/3 < 0.55. -/
def respW : SearchResponse :=
  { results := [NCOEngine.mkResult (mkOcc "0001.0001" "aaa") (9/10) (1/3)],
    low_confidence := true, language := "en", translated := false,
    suggestions := some [], alternatives := some [] }

/-- Two records with the same code, distinct titles. -/
def occDupA : Occupation := mkOcc "1111.1111" "first title"

/-- Second occurrence of the duplicated code. -/
def occDupB : Occupation := mkOcc "1111.1111" "second title"

/-- Two records with the same title, distinct codes. -/
def occT1 : Occupation := mkOcc "2222.2222" "same"

/-- Second occurrence of the duplicated title. -/
def occT2 : Occupation := mkOcc "3333.3333" "same"

/-- Engine with a duplicated code. -/
def E7 : NCOEngine :=
  { occupations := [occDupA, occDupB], idxSearch := fun _ _ => [],
    e := fun _ => 1, closeMatches := fun _ _ => [] }

/-- Engine with a duplicated lowercased title. -/
def E7b : NCOEngine :=
  { occupations := [occT1, occT2], idxSearch := fun _ _ => [],
    e := fun _ => 1, closeMatches := fun _ _ => [] }

/-- A hierarchy placed on the first fixture record. -/
def hier1 : Hierarchy :=
  { division_code := "1", sub_division_code := "11",
    minor_group_code := "111", unit_group_code := "1111" }

/-- Six records, one in division "1", one titled "weld"; the index replies
with all six at similarity 9/10, so each softmax weight is 1/6. -/
def E4 : NCOEngine :=
  { occupations := [mkOcc "0001.0001" "aaa" (some hier1),
      mkOcc "0002.0002" "bbb", mkOcc "0003.0003" "ccc",
      mkOcc "0004.0004" "ddd", mkOcc "0005.0005" "eee",
      mkOcc "0006.0006" "weld"],
    idxSearch := fun _ _ =>
      [(0, 9/10), (1, 9/10), (2, 9/10), (3, 9/10), (4, 9/10), (5, 9/10)],
    e := fun _ => 1,
    closeMatches := fun _ _ => [] }

/-- The single vector-stage survivor of the division-"1" filter in `E4`. -/
def r4 : SearchResult :=
  NCOEngine.mkResult (mkOcc "0001.0001" "aaa" (some hier1)) (9/10) (1/6)

/-- Three records; the index replies with similarity 1/10 for the original
query `"tailor"` and 9/10 for every expanded variant (softmax weight is
1/3 either way, below the 0.5 break threshold). -/
def E6 : NCOEngine :=
  { occupations := [mkOcc "0001.0001" "aaa", mkOcc "0002.0002" "bbb",
      mkOcc "0003.0003" "ccc"],
    idxSearch := fun q _ =>
      if q = "tailor" then [(0, 1/10), (1, 1/10), (2, 1/10)]
      else [(0, 9/10), (1, 9/10), (2, 9/10)],
    e := fun _ => 1,
    closeMatches := fun _ _ => [] }

/-- Top result of Stage A for the original query in `E6`. -/
def r6low : SearchResult := NCOEngine.mkResult (mkOcc "0001.0001" "aaa") (1/10) (1/3)

/-- Top result of Stage A for every expanded variant in `E6`. -/
def r6high : SearchResult := NCOEngine.mkResult (mkOcc "0001.0001" "aaa") (9/10) (1/3)

/-- Maximal runs of alphabetic characters (`cur` is the reversed current
run); used only by the claim-worded tokeniser below. -/
def alphaRunsAux : List Char → List Char → List (List Char)
  | [], cur => if cur = [] then [] else [cur.reverse]
  | c :: rest, cur =>
    if c.isAlpha then alphaRunsAux rest (c :: cur)
    else if cur = [] then alphaRunsAux rest []
    else cur.reverse :: alphaRunsAux rest []

/-- Tokenisation as the claim words it: maximal runs of alphabetic
characters of the lowercased text, kept when of length ≥ 3. -/
def specTokens (q : String) : List String :=
  ((alphaRunsAux (lowerStr q).data []).map String.mk).filter
    (fun w => 3 ≤ w.length)

/-- The claim-worded inverted-index entries of one record: the ≥3-letter
alphabetic words of its title and synonyms. -/
def specEntries (occ : Occupation) : List String :=
  specTokens occ.title ++ (occ.synonyms.map specTokens).flatten

/-- The keyword fallback as the CLAIM words it — identical ranking, cap
and result construction to `NCOEngine.keyword_fallback`, but the query is
tokenised into ≥3-letter maximal alphabetic runs and a candidate scores
one point per matching token.  Defined solely to be compared with the
code's version. -/
def keyword_fallback_claimed (E : NCOEngine) (query : String) :
    List SearchResult :=
  let toks := specTokens query
  let scores := toks.foldl (fun acc w =>
    (E.occupations.filter (fun occ => w ∈ specEntries occ)).foldl
      (fun a occ => NCOEngine.bump a occ.nco_code) acc) []
  ((NCOEngine.rankSort scores).take 10).filterMap (fun cs =>
    (E.code_lookup cs.1).map (fun occ =>
      { nco_code := cs.1, title := occ.title, description := occ.description,
        score := (cs.2 : ℚ), confidence := 1/4, matched_synonyms := [],
        hierarchy := occ.hierarchy, breadcrumb := occ.breadcrumb }))

/-- A one-record engine whose title is `"arc welder"`. -/
def E8 : NCOEngine :=
  { occupations := [mkOcc "0001.0001" "arc welder"],
    idxSearch := fun _ _ => [],
    e := fun _ => 1,
    closeMatches := fun _ _ => [] }

/-! ## C1 — availability of search during reindex -/

/-- C1, counterexample.  With a snapshot loaded and a reindex in progress,
the `/search` handler does not serve from the previous snapshot: it raises
the 503 "Service is reindexing" error (main.py lines 230–231 run before
anything else in the handler). -/
theorem C1_counterexample :
    searchHandler cfg0 stReindex ⟨"qq", 1, none⟩ =
      .error ⟨503, "Service is reindexing, please try again in a moment"⟩ ∧
    stReindex.engine.isSome = true := by
  with_unfolding_all decide

/-- C1, amended.  Whenever `is_reindexing` is set, every search request
fails with the 503 unavailable error, even though the loaded snapshot is
untouched; searches are served only while no reindex is in progress. -/
theorem C1_theorem (cfg : Config) (st : ServerState) (req : SearchRequest)
    (h : st.is_reindexing = true) :
    searchHandler cfg st req =
      .error ⟨503, "Service is reindexing, please try again in a moment"⟩ := by
  simp [searchHandler, h]

/-- C1, witness for the amended theorem at a concrete reindexing state. -/
theorem C1_witness :
    searchHandler cfg0 stReindex ⟨"welder", 5, none⟩ =
      .error ⟨503, "Service is reindexing, please try again in a moment"⟩ :=
  C1_theorem cfg0 stReindex ⟨"welder", 5, none⟩ rfl

/-! ## C2 — the `low_confidence` flag -/

/-- In every successful response the flag equals `lowConf` of the returned
result list (including the translation-rescue branch, which recomputes it
after adopting the translated results). -/
theorem searchHandler_ok_flag (cfg : Config) (st : ServerState)
    (req : SearchRequest) (resp : SearchResponse)
    (h : searchHandler cfg st req = .ok resp) :
    resp.low_confidence = lowConf cfg resp.results := by
  simp only [searchHandler] at h
  repeat' split at h
  all_goals first
    | exact Except.noConfusion h
    | (injection h with h2; subst h2; rfl)

/-- C2.  In every response actually returned by `/search`, `low_confidence`
is true iff the result list is empty, or the top score is `< LOWCONF_TOPSIM`,
or the top confidence is `< LOWCONF_SOFTMAX`. -/
theorem C2_theorem (cfg : Config) (st : ServerState) (req : SearchRequest)
    (resp : SearchResponse) (h : searchHandler cfg st req = .ok resp) :
    (resp.low_confidence = true ↔
      resp.results = [] ∨ ∃ r t, resp.results = r :: t ∧
        (r.score < cfg.LOWCONF_TOPSIM ∨ r.confidence < cfg.LOWCONF_SOFTMAX)) := by
  rw [searchHandler_ok_flag cfg st req resp h]
  cases hr : resp.results with
  | nil => simp [lowConf]
  | cons r t => simp [lowConf]



/-- C2, witness: the handler hypothesis holds at a concrete request and the
equivalence follows by the theorem. -/
theorem C2_witness :
    (searchHandler cfg0 stOk ⟨"qq", 1, none⟩ = .ok respW) ∧
    (respW.low_confidence = true ↔
      respW.results = [] ∨ ∃ r t, respW.results = r :: t ∧
        (r.score < cfg0.LOWCONF_TOPSIM ∨ r.confidence < cfg0.LOWCONF_SOFTMAX)) :=
  ⟨by with_unfolding_all decide,
   C2_theorem cfg0 stOk ⟨"qq", 1, none⟩ respW (by with_unfolding_all decide)⟩

/-! ## C7 — duplicate-code and duplicate-title handling at load -/









/-- C7, counterexample.  Both `code_lookup` (dict comprehension, line 107)
and `title_index` (assignment in a loop, line 145) keep the LAST record for
a duplicated key, not the first as claimed. -/
theorem C7_counterexample :
    E7.code_lookup "1111.1111" = some occDupB ∧ occDupB ≠ occDupA ∧
    E7b.title_index "same" = some occT2 ∧ occT2 ≠ occT1 := by
  with_unfolding_all decide

/-- C7, amended.  Duplicate codes are not collapsed out of the catalog
sequence; in both the code lookup and the lowercased-title lookup the last
occurrence wins: a record appended at the end of the catalog is the one
returned for its code and its lowercased title. -/
theorem C7_theorem (E : NCOEngine) (occs : List Occupation) (occ : Occupation)
    (h : E.occupations = occs ++ [occ]) :
    E.code_lookup occ.nco_code = some occ ∧
    E.title_index (lowerStr occ.title) = some occ := by
  unfold NCOEngine.code_lookup NCOEngine.title_index
  rw [h, List.reverse_append]
  simp [List.find?]

/-- C7, witness at the concrete duplicated-code engine. -/
theorem C7_witness :
    E7.code_lookup occDupB.nco_code = some occDupB ∧
    E7.title_index (lowerStr occDupB.title) = some occDupB :=
  C7_theorem E7 [occDupA] occDupB rfl

/-! ## C9 — synonym add followed by remove of the same value -/

/-- C9, counterexample.  If the value is already a synonym, the add is a
no-op and the remove then deletes it: starting from `{"x"}`, adding `"x"`
and removing `"x"` leaves `∅`, not the original set. -/
theorem C9_counterexample :
    (applyRemove (applyAdd {"x"} ["x"]).1 ["x"]).1 = (∅ : Finset String) ∧
    (applyRemove (applyAdd {"x"} ["x"]).1 ["x"]).1 ≠ ({"x"} : Finset String) := by
  with_unfolding_all decide

/-- C9, amended.  Adding `v` and then removing `v` always yields the
original synonym set with `v` removed; this equals the original set exactly
when `v` was not already a synonym. -/
theorem C9_theorem (syns : Finset String) (v : String) :
    (applyRemove (applyAdd syns [v]).1 [v]).1 = syns \ {v} ∧
    (v ∉ syns → (applyRemove (applyAdd syns [v]).1 [v]).1 = syns) := by
  have hne : ([v] : List String) ≠ [] := by simp
  have htf : ([v] : List String).toFinset = {v} := by simp
  have hmain : (applyRemove (applyAdd syns [v]).1 [v]).1 = syns \ {v} := by
    by_cases hv : v ∈ syns
    · have h1 : applyAdd syns [v] = (syns, ∅) := by
        unfold applyAdd
        rw [if_neg hne, htf,
          if_pos (by simp [Finset.sdiff_eq_empty_iff_subset, hv])]
      rw [h1]
      unfold applyRemove
      rw [if_neg hne, htf]
      have h2 : ({v} : Finset String) ∩ syns = {v} := by
        ext x
        simp only [Finset.mem_inter, Finset.mem_singleton, and_iff_left_iff_imp]
        rintro rfl
        exact hv
      rw [h2, if_neg (Finset.singleton_ne_empty v)]
    · have h1 : applyAdd syns [v] = (syns ∪ ({v} \ syns), {v} \ syns) := by
        unfold applyAdd
        rw [if_neg hne, htf,
          if_neg (by simp [Finset.sdiff_eq_empty_iff_subset, hv])]
      rw [h1]
      unfold applyRemove
      rw [if_neg hne, htf]
      have h2 : ({v} : Finset String) ∩ (syns ∪ ({v} \ syns)) = {v} := by
        ext x
        simp only [Finset.mem_inter, Finset.mem_union, Finset.mem_sdiff,
          Finset.mem_singleton, and_iff_left_iff_imp]
        rintro rfl
        right
        exact ⟨rfl, hv⟩
      rw [h2, if_neg (Finset.singleton_ne_empty v)]
      ext x
      simp only [Finset.mem_sdiff, Finset.mem_union, Finset.mem_singleton]
      tauto
  refine ⟨hmain, fun hv => ?_⟩
  rw [hmain]
  ext x
  simp only [Finset.mem_sdiff, Finset.mem_singleton, and_iff_left_iff_imp]
  intro hx
  intro hxv
  exact hv (hxv ▸ hx)

/-- C9, witness: applying the amended theorem at a value not present. -/
theorem C9_witness :
    (applyRemove (applyAdd (∅ : Finset String) ["a"]).1 ["a"]).1 = ∅ :=
  (C9_theorem ∅ "a").2 (by simp)

/-! ## C10 — a no-op synonym update has no effects -/

/-- With unique codes, a lookup hit pins down every entry with that code. -/
theorem lookupCode_unique {catalog : SynCatalog}
    (hnd : (catalog.map Prod.fst).Nodup) {c : String} {s : Finset String}
    (h : lookupCode catalog c = some s) :
    ∀ p ∈ catalog, p.1 = c → p = (c, s) := by
  intro p hp hpc
  unfold lookupCode at h
  cases hfind : catalog.reverse.find? (fun q => q.1 = c) with
  | none => rw [hfind] at h; simp at h
  | some q =>
    rw [hfind] at h
    simp at h
    have hqmem : q ∈ catalog := List.mem_reverse.mp (List.mem_of_find?_eq_some hfind)
    have hqc : q.1 = c := by
      have := List.find?_some hfind
      simpa using this
    have hpq : p = q := List.inj_on_of_nodup_map hnd hp hqmem (hpc.trans hqc.symm)
    rw [hpq, Prod.ext_iff]
    exact ⟨hqc, h⟩

/-- A no-op update leaves the written-back catalog unchanged. -/
theorem writeCode_noop {catalog : SynCatalog}
    (hnd : (catalog.map Prod.fst).Nodup) {c : String} {s : Finset String}
    (h : lookupCode catalog c = some s) :
    writeCode catalog c s = catalog := by
  unfold writeCode
  have : ∀ p ∈ catalog, (if p.1 = c then (c, s) else p) = p := by
    intro p hp
    by_cases hpc : p.1 = c
    · rw [if_pos hpc, (lookupCode_unique hnd h p hp hpc)]
    · rw [if_neg hpc]
  rw [List.map_congr_left this]
  simp

/-- Core of C10: when every listed add is already present and every listed
remove is absent, the update loop changes nothing and counts nothing. -/
theorem runUpdates_noop (catalog : SynCatalog)
    (hnd : (catalog.map Prod.fst).Nodup) :
    ∀ updates : List SynonymUpdate,
      (∀ u ∈ updates, ∀ syns, lookupCode catalog u.nco_code = some syns →
        (∀ v ∈ u.add, v ∈ syns) ∧ (∀ v ∈ u.remove, v ∉ syns)) →
      (runUpdates catalog updates).1 = catalog ∧
      (runUpdates catalog updates).2.1 = 0 ∧
      (runUpdates catalog updates).2.2.2 = [] := by
  intro updates
  induction updates with
  | nil => intro _; exact ⟨rfl, rfl, rfl⟩
  | cons u rest ih =>
    intro h
    have hu := h u (List.mem_cons_self u rest)
    have hrest := fun u' hu' => h u' (List.mem_cons_of_mem u hu')
    unfold runUpdates
    cases hl : lookupCode catalog u.nco_code with
    | none =>
      have := ih hrest
      simp only [hl]
      exact ⟨this.1, this.2.1, this.2.2⟩
    | some syns =>
      obtain ⟨hadd, hrem⟩ := hu syns hl
      have haddEq : applyAdd syns u.add = (syns, ∅) := by
        unfold applyAdd
        by_cases he : u.add = []
        · rw [if_pos he]
        · rw [if_neg he, if_pos ?_]
          rw [Finset.sdiff_eq_empty_iff_subset]
          intro v hv
          exact hadd v (by simpa using hv)
      have hremEq : applyRemove syns u.remove = (syns, ∅) := by
        unfold applyRemove
        by_cases he : u.remove = []
        · rw [if_pos he]
        · rw [if_neg he, if_pos ?_]
          rw [Finset.eq_empty_iff_forall_not_mem]
          intro v hv
          simp only [Finset.mem_inter, List.mem_toFinset] at hv
          exact hrem v hv.1 hv.2
      have hwrite : writeCode catalog u.nco_code syns = catalog :=
        writeCode_noop hnd hl
      simp only [hl, haddEq, hremEq, hwrite]
      have := ih hrest
      simp only [ne_eq, not_true_eq_false, if_neg, ite_false]
      constructor
      · exact this.1
      constructor
      · simpa using this.2.1
      · simpa using this.2.2

/-- C10.  An admin synonym update in which every value-to-add is already
present and every value-to-remove is absent rewrites no file, appends no
audit entry, and reports `updated = 0`, `requires_reindex = false`. -/
theorem C10_theorem (catalog : SynCatalog) (updates : List SynonymUpdate)
    (hnd : (catalog.map Prod.fst).Nodup)
    (h : ∀ u ∈ updates, ∀ syns, lookupCode catalog u.nco_code = some syns →
        (∀ v ∈ u.add, v ∈ syns) ∧ (∀ v ∈ u.remove, v ∉ syns)) :
    (updateSynonymsHandler catalog updates).updated = 0 ∧
    (updateSynonymsHandler catalog updates).fileWritten = false ∧
    (updateSynonymsHandler catalog updates).auditLogged = false ∧
    (updateSynonymsHandler catalog updates).requires_reindex = false ∧
    (updateSynonymsHandler catalog updates).newCatalog = catalog := by
  obtain ⟨h1, h2, h3⟩ := runUpdates_noop catalog hnd updates h
  unfold updateSynonymsHandler
  simp [h1, h2]

/-- C10, witness: a concrete no-op update (add an existing synonym, remove
an absent one) on a one-record catalog. -/
theorem C10_witness :
    (updateSynonymsHandler [("0001.0001", {"x"})]
        [⟨"0001.0001", ["x"], ["y"]⟩]).updated = 0 ∧
    (updateSynonymsHandler [("0001.0001", {"x"})]
        [⟨"0001.0001", ["x"], ["y"]⟩]).fileWritten = false ∧
    (updateSynonymsHandler [("0001.0001", {"x"})]
        [⟨"0001.0001", ["x"], ["y"]⟩]).auditLogged = false ∧
    (updateSynonymsHandler [("0001.0001", {"x"})]
        [⟨"0001.0001", ["x"], ["y"]⟩]).requires_reindex = false ∧
    (updateSynonymsHandler [("0001.0001", {"x"})]
        [⟨"0001.0001", ["x"], ["y"]⟩]).newCatalog = [("0001.0001", {"x"})] :=
  C10_theorem [("0001.0001", {"x"})] [⟨"0001.0001", ["x"], ["y"]⟩]
    (by simp)
    (by
      intro u hu syns hl
      simp at hu
      subst hu
      have : lookupCode [("0001.0001", ({"x"} : Finset String))] "0001.0001" =
          some {"x"} := by with_unfolding_all decide
      rw [this] at hl
      injection hl with hl
      subst hl
      constructor
      · intro v hv
        simp at hv
        subst hv
        simp
      · intro v hv
        simp at hv
        subst hv
        with_unfolding_all decide)

/-! ## C4 — the gate of the lexical fallback stage -/







/-- C4, counterexample.  The fallback gate tests the top softmax
CONFIDENCE, not the raw similarity score: here the top raw score is 9/10
(≥ 0.3, so per the claim the fallback must not run), yet the gate fires
because the confidence is 1/6, and the keyword fallback visibly merges a
sentinel result with confidence 1/4 into the answer. -/
theorem C4_counterexample :
    NCOEngine.vectorStage E4 "weld" 2 (some "1") none = [r4] ∧
    ¬ (r4.score < 3/10) ∧
    NCOEngine.fallbackGate (NCOEngine.vectorStage E4 "weld" 2 (some "1") none) = true ∧
    NCOEngine.search E4 "weld" 2 (some "1") none =
      [r4,
       { nco_code := "0006.0006", title := "weld", description := "",
         score := 1, confidence := 1/4, matched_synonyms := ["weld"],
         hierarchy := none, breadcrumb := none }] := by
  with_unfolding_all decide

/-- C4, amended.  The keyword/fuzzy fallback stage is entered iff the
result set after the variant loop is empty or its top result's softmax
CONFIDENCE is strictly below 0.3 (the raw score plays no role in the
gate). -/
theorem C4_theorem (E : NCOEngine) (query : String) (k : ℕ)
    (df mf : Option String) :
    (NCOEngine.vectorStage E query k df mf = [] →
      NCOEngine.search E query k df mf =
        (NCOEngine.mergeFallback k
          (NCOEngine.keyword_fallback E query ++ NCOEngine.fuzzy_fallback E query)
          [] []).map (NCOEngine.annotate E query)) ∧
    (∀ r t, NCOEngine.vectorStage E query k df mf = r :: t →
      (r.confidence < 3/10 →
        NCOEngine.search E query k df mf =
          (NCOEngine.mergeFallback k
            (NCOEngine.keyword_fallback E query ++ NCOEngine.fuzzy_fallback E query)
            ((r :: t).map (fun x => x.nco_code)) (r :: t)).map
            (NCOEngine.annotate E query)) ∧
      (3/10 ≤ r.confidence →
        NCOEngine.search E query k df mf =
          (r :: t).map (NCOEngine.annotate E query))) := by
  constructor
  · intro h0
    simp only [NCOEngine.search, h0]
    rfl
  · intro r t hrt
    constructor
    · intro hc
      have hg : NCOEngine.fallbackGate (r :: t) = true := by
        simp [NCOEngine.fallbackGate, hc]
      simp only [NCOEngine.search, hrt, hg, if_true]
    · intro hc
      have hg : NCOEngine.fallbackGate (r :: t) = false := by
        simp [NCOEngine.fallbackGate, not_lt.mpr hc]
      simp only [NCOEngine.search, hrt, hg, if_false]
      simp

/-- C4, witness: the amended gate applied to the concrete `E4` scenario
(top confidence 1/6 < 0.3 fires the fallback branch). -/
theorem C4_witness :
    NCOEngine.search E4 "weld" 2 (some "1") none =
      (NCOEngine.mergeFallback 2
        (NCOEngine.keyword_fallback E4 "weld" ++ NCOEngine.fuzzy_fallback E4 "weld")
        ([r4].map (fun x => x.nco_code)) [r4]).map (NCOEngine.annotate E4 "weld") :=
  (((C4_theorem E4 "weld" 2 (some "1") none).2 r4 []
    (by with_unfolding_all decide)).1 (by with_unfolding_all decide))

/-! ## C6 — which result set the synonym-expansion loop keeps -/







/-- C6, counterexample.  Synonym expansion runs (top confidence 1/3 < 0.5)
and the variant `"sewing machine operator"` reaches top raw similarity
9/10, yet the loop keeps the original query's result set with top raw
similarity 1/10: the kept set is NOT the one with the highest top raw
similarity among the variants tried. -/
theorem C6_counterexample :
    NCOEngine.stageA E6 "tailor" 1 none none = [r6low] ∧
    (1 : ℚ)/3 < 1/2 ∧
    "sewing machine operator" ∈
      "tailor" :: NCOEngine.expand_query_with_synonyms "tailor" ∧
    NCOEngine.stageA E6 "sewing machine operator" 1 none none = [r6high] ∧
    NCOEngine.vectorStage E6 "tailor" 1 none none = [r6low] ∧
    ¬ ((9 : ℚ)/10 ≤ 1/10) := by
  with_unfolding_all decide

/-- When every variant's Stage A answer stays below confidence 0.5, the
loop never replaces a non-empty `results`. -/
theorem searchLoop_stable (E : NCOEngine) (k : ℕ) (df mf : Option String)
    (query : String) :
    ∀ (L : List String) (attempt : ℕ) (results : List SearchResult),
      results ≠ [] →
      (∀ v ∈ L, ∀ r ∈ (NCOEngine.stageA E v k df mf).take 1,
        r.confidence < 1/2) →
      NCOEngine.searchLoop E k df mf query L attempt results = results := by
  intro L
  induction L with
  | nil =>
    intro attempt results _ _
    rfl
  | cons q rest ih =>
    intro attempt results hne hlow
    unfold NCOEngine.searchLoop
    by_cases hskip : attempt ≠ 0 ∧ q = query
    · rw [if_pos hskip]
      exact ih (attempt + 1) results hne
        (fun v hv => hlow v (List.mem_cons_of_mem _ hv))
    · rw [if_neg hskip]
      cases hA : NCOEngine.stageA E q k df mf with
      | nil =>
        exact ih (attempt + 1) results hne
          (fun v hv => hlow v (List.mem_cons_of_mem _ hv))
      | cons t ts =>
        have hconf : t.confidence < 1/2 :=
          hlow q (List.mem_cons_self _ _) t (by simp [hA])
        dsimp only
        rw [if_neg (not_le.mpr hconf), if_neg hne]
        exact ih (attempt + 1) results hne
          (fun v hv => hlow v (List.mem_cons_of_mem _ hv))

/-- C6, amended.  The loop tries the variants in order and stops at the
first one whose top confidence reaches 0.5.  When no variant reaches it —
and the original query returns anything at all — the kept result set is
Stage A of the ORIGINAL query (truncated to `k`), regardless of the raw
similarities the other variants achieved. -/
theorem C6_theorem (E : NCOEngine) (query : String) (k : ℕ)
    (df mf : Option String) (hk : 1 ≤ k)
    (hne : NCOEngine.stageA E query k df mf ≠ [])
    (hlow : ∀ v ∈ query :: NCOEngine.expand_query_with_synonyms query,
      ∀ r ∈ (NCOEngine.stageA E v k df mf).take 1, r.confidence < 1/2) :
    NCOEngine.vectorStage E query k df mf =
      (NCOEngine.stageA E query k df mf).take k := by
  unfold NCOEngine.vectorStage NCOEngine.searchLoop
  rw [if_neg (by simp)]
  cases hA : NCOEngine.stageA E query k df mf with
  | nil => exact absurd hA hne
  | cons t ts =>
    have hconf : t.confidence < 1/2 :=
      hlow query (List.mem_cons_self _ _) t (by simp [hA])
    dsimp only
    rw [if_neg (not_le.mpr hconf), if_pos rfl]
    have htake : (t :: ts).take k ≠ [] := by
      cases k with
      | zero => omega
      | succ n => simp
    exact searchLoop_stable E k df mf query _ 1 _ htake
      (fun v hv => hlow v (List.mem_cons_of_mem _ hv))

/-- C6, witness: the amended statement at the concrete `E6` scenario. -/
theorem C6_witness :
    NCOEngine.vectorStage E6 "tailor" 1 none none =
      (NCOEngine.stageA E6 "tailor" 1 none none).take 1 :=
  C6_theorem E6 "tailor" 1 none none (by norm_num)
    (by with_unfolding_all decide) (by with_unfolding_all decide)

/-! ## C8 — the keyword fallback -/

/-- C8, counterexample.  `_keyword_fallback` splits the query on
whitespace only (keeping any token longer than two characters), so the
hyphenated query `"arc-welder"` produces the single token `"arc-welder"`,
matches nothing, and the fallback returns no results — while under the
claim's tokenisation (maximal alphabetic runs ≥ 3 letters) the tokens are
`"arc"` and `"welder"` and the record scores 2. -/
theorem C8_counterexample :
    NCOEngine.keyword_fallback E8 "arc-welder" = [] ∧
    NCOEngine.pyTokens "arc-welder" = ["arc-welder"] ∧
    specTokens "arc-welder" = ["arc", "welder"] ∧
    keyword_fallback_claimed E8 "arc-welder" =
      [{ nco_code := "0001.0001", title := "arc welder", description := "",
         score := 2, confidence := 1/4, matched_synonyms := [],
         hierarchy := none, breadcrumb := none }] ∧
    ([] : List SearchResult) ≠
      [{ nco_code := "0001.0001", title := "arc welder", description := "",
         score := 2, confidence := 1/4, matched_synonyms := [],
         hierarchy := none, breadcrumb := none }] := by
  with_unfolding_all decide

/-- `lexLe` is total. -/
theorem lexLe_total : ∀ x y : List Char, lexLe x y = true ∨ lexLe y x = true := by
  intro x
  induction x with
  | nil => intro y; left; rfl
  | cons a as ih =>
    intro y
    cases y with
    | nil => right; rfl
    | cons b bs =>
      rcases Nat.lt_trichotomy a.toNat b.toNat with hab | hab | hab
      · left; simp [lexLe, hab]
      · rcases ih bs with h | h
        · left; simp [lexLe, hab, h]
        · right; simp [lexLe, hab.symm, h]
      · right; simp [lexLe, hab]

/-- `lexLe` is transitive. -/
theorem lexLe_trans :
    ∀ x y z : List Char, lexLe x y = true → lexLe y z = true →
      lexLe x z = true := by
  intro x
  induction x with
  | nil => intro y z _ _; rfl
  | cons a as ih =>
    intro y z hxy hyz
    cases y with
    | nil => simp [lexLe] at hxy
    | cons b bs =>
      cases z with
      | nil => simp [lexLe] at hyz
      | cons c cs =>
        rcases Nat.lt_trichotomy a.toNat b.toNat with hab | hab | hab
        · rcases Nat.lt_trichotomy b.toNat c.toNat with hbc | hbc | hbc
          · simp [lexLe, show a.toNat < c.toNat by omega]
          · simp [lexLe, show a.toNat < c.toNat by omega]
          · simp [lexLe, show ¬ b.toNat < c.toNat by omega, hbc] at hyz
        · rcases Nat.lt_trichotomy b.toNat c.toNat with hbc | hbc | hbc
          · simp [lexLe, show a.toNat < c.toNat by omega]
          · have hxy' : lexLe as bs = true := by
              simpa [lexLe, hab] using hxy
            have hyz' : lexLe bs cs = true := by
              simpa [lexLe, hbc] using hyz
            simp [lexLe, show ¬ a.toNat < c.toNat by omega,
              show ¬ c.toNat < a.toNat by omega, ih bs cs hxy' hyz']
          · simp [lexLe, show ¬ b.toNat < c.toNat by omega, hbc] at hyz
        · simp [lexLe, show ¬ a.toNat < b.toNat by omega, hab] at hxy

/-- The sort key of `_keyword_fallback` in propositional form. -/
theorem rankedBefore_iff (a b : String × ℕ) :
    NCOEngine.rankedBefore a b = true ↔
      b.2 < a.2 ∨ (a.2 = b.2 ∧ strLe a.1 b.1 = true) := by
  simp [NCOEngine.rankedBefore, decide_eq_true_iff]

/-- The sort key is total. -/
theorem rankedBefore_total (a b : String × ℕ) :
    NCOEngine.rankedBefore a b = true ∨ NCOEngine.rankedBefore b a = true := by
  rcases Nat.lt_trichotomy a.2 b.2 with h | h | h
  · right; rw [rankedBefore_iff]; exact Or.inl h
  · rcases lexLe_total a.1.data b.1.data with h' | h'
    · left; rw [rankedBefore_iff]; exact Or.inr ⟨h, h'⟩
    · right; rw [rankedBefore_iff]; exact Or.inr ⟨h.symm, h'⟩
  · left; rw [rankedBefore_iff]; exact Or.inl h

/-- The sort key is transitive. -/
theorem rankedBefore_trans (a b c : String × ℕ)
    (hab : NCOEngine.rankedBefore a b = true)
    (hbc : NCOEngine.rankedBefore b c = true) :
    NCOEngine.rankedBefore a c = true := by
  rw [rankedBefore_iff] at hab hbc ⊢
  rcases hab with h1 | ⟨h1, h1'⟩
  · rcases hbc with h2 | ⟨h2, _⟩
    · exact Or.inl (by omega)
    · exact Or.inl (by omega)
  · rcases hbc with h2 | ⟨h2, h2'⟩
    · exact Or.inl (by omega)
    · exact Or.inr ⟨by omega, lexLe_trans _ _ _ h1' h2'⟩

/-- Membership through `insertRanked`. -/
theorem mem_insertRanked (x y : String × ℕ) :
    ∀ l : List (String × ℕ), y ∈ NCOEngine.insertRanked x l ↔ y = x ∨ y ∈ l := by
  intro l
  induction l with
  | nil => simp [NCOEngine.insertRanked]
  | cons z zs ih =>
    unfold NCOEngine.insertRanked
    by_cases h : NCOEngine.rankedBefore x z = true
    · rw [if_pos h]
      simp
    · rw [if_neg h]
      simp [ih]
      tauto

/-- `insertRanked` preserves sortedness. -/
theorem pairwise_insertRanked (x : String × ℕ) :
    ∀ l : List (String × ℕ),
      l.Pairwise (fun a b => NCOEngine.rankedBefore a b = true) →
      (NCOEngine.insertRanked x l).Pairwise
        (fun a b => NCOEngine.rankedBefore a b = true) := by
  intro l
  induction l with
  | nil =>
    intro _
    simp [NCOEngine.insertRanked]
  | cons z zs ih =>
    intro hl
    rcases List.pairwise_cons.mp hl with ⟨hz, hzs⟩
    unfold NCOEngine.insertRanked
    by_cases h : NCOEngine.rankedBefore x z = true
    · rw [if_pos h]
      refine List.Pairwise.cons ?_ hl
      intro y hy
      rcases List.mem_cons.mp hy with rfl | hy'
      · exact h
      · exact rankedBefore_trans x z y h (hz y hy')
    · rw [if_neg h]
      refine List.Pairwise.cons ?_ (ih hzs)
      intro y hy
      rcases (mem_insertRanked x y zs).mp hy with rfl | hy'
      · rcases rankedBefore_total y z with h' | h'
        · exact absurd h' h
        · exact h'
      · exact hz y hy'

/-- `insertRanked` permutes a cons. -/
theorem insertRanked_perm (x : String × ℕ) :
    ∀ l : List (String × ℕ), (NCOEngine.insertRanked x l).Perm (x :: l) := by
  intro l
  induction l with
  | nil => exact List.Perm.refl _
  | cons z zs ih =>
    unfold NCOEngine.insertRanked
    by_cases h : NCOEngine.rankedBefore x z = true
    · rw [if_pos h]
    · rw [if_neg h]
      exact (ih.cons z).trans (List.Perm.swap x z zs)

/-- `rankSort` sorts by the key. -/
theorem rankSort_pairwise (l : List (String × ℕ)) :
    (NCOEngine.rankSort l).Pairwise
      (fun a b => NCOEngine.rankedBefore a b = true) := by
  induction l with
  | nil => simp [NCOEngine.rankSort]
  | cons x xs ih => exact pairwise_insertRanked x _ ih

/-- `rankSort` permutes its input. -/
theorem rankSort_perm (l : List (String × ℕ)) :
    (NCOEngine.rankSort l).Perm l := by
  induction l with
  | nil => exact List.Perm.refl _
  | cons x xs ih =>
    exact (insertRanked_perm x (NCOEngine.rankSort xs)).trans (ih.cons x)

/-- C8, amended.  The keyword fallback tokenises by splitting the query on
whitespace, keeping lowercased tokens longer than two characters; each
candidate scores one per (token, index-entry) pair — with multiplicity
when a word occurs in both title and synonyms — via `tallyScores` over the
whitespace-word index; at most ten results are returned, ranked by score
descending with ties broken by code ascending, each carrying confidence
0.25 and score equal to its tally count. -/
theorem C8_theorem (E : NCOEngine) (query : String) :
    (NCOEngine.keyword_fallback E query).length ≤ 10 ∧
    (∀ r ∈ NCOEngine.keyword_fallback E query,
      r.confidence = 1/4 ∧
      ∃ n : ℕ, r.score = (n : ℚ) ∧
        (r.nco_code, n) ∈ NCOEngine.tallyScores E (NCOEngine.pyTokens query)) ∧
    (NCOEngine.keyword_fallback E query).Pairwise
      (fun a b => b.score < a.score ∨
        (a.score = b.score ∧ strLe a.nco_code b.nco_code = true)) := by
  refine ⟨?_, ?_, ?_⟩
  · unfold NCOEngine.keyword_fallback
    refine le_trans (List.length_filterMap_le _ _) ?_
    rw [List.length_take]
    omega
  · intro r hr
    unfold NCOEngine.keyword_fallback at hr
    rw [List.mem_filterMap] at hr
    obtain ⟨cs, hcs, hf⟩ := hr
    cases hocc : E.code_lookup cs.1 with
    | none => rw [hocc] at hf; simp at hf
    | some occ =>
      rw [hocc] at hf
      injection hf with hf
      subst hf
      refine ⟨rfl, cs.2, rfl, ?_⟩
      have h1 : cs ∈ NCOEngine.rankSort
          (NCOEngine.tallyScores E (NCOEngine.pyTokens query)) :=
        (List.take_sublist 10 _).mem hcs
      exact (rankSort_perm _).mem_iff.mp h1
  · unfold NCOEngine.keyword_fallback
    have hp := (rankSort_pairwise
      (NCOEngine.tallyScores E (NCOEngine.pyTokens query))).sublist
      (List.take_sublist 10 _)
    rw [List.pairwise_filterMap]
    refine hp.imp ?_
    intro a b hab x hx y hy
    rw [Option.mem_def] at hx hy
    cases ha : E.code_lookup a.1 with
    | none => rw [ha] at hx; simp at hx
    | some oa =>
      rw [ha] at hx
      cases hb : E.code_lookup b.1 with
      | none => rw [hb] at hy; simp at hy
      | some ob =>
        rw [hb] at hy
        injection hx with hx
        injection hy with hy
        subst hx
        subst hy
        dsimp only
        rcases (rankedBefore_iff a b).mp hab with h | ⟨h, h'⟩
        · left
          exact_mod_cast h
        · right
          exact ⟨by exact_mod_cast h, h'⟩

/-! ## Shared pipeline lemmas (used by the invariant claims C3 and C5) -/

/-- Appending one fresh element keeps a list duplicate-free. -/
theorem nodup_append_single (l : List String) (a : String)
    (h : l.Nodup) (ha : a ∉ l) : (l ++ [a]).Nodup := by
  rw [List.nodup_append]
  refine ⟨h, List.nodup_singleton a, ?_⟩
  intro x hx hxa
  rw [List.mem_singleton] at hxa
  exact ha (hxa ▸ hx)

/-- The FAISS ids of the zipped rows are a sublist of the reply's ids. -/
theorem zipRows_fst_sublist :
    ∀ (rows : List (Int × ℚ)) (confs : List ℚ),
      ((NCOEngine.zipRows rows confs).map (fun p => p.1)).Sublist
        (rows.map Prod.fst) := by
  intro rows
  induction rows with
  | nil => intro confs; simp [NCOEngine.zipRows]
  | cons r rs ih =>
    intro confs
    cases confs with
    | nil => simp [NCOEngine.zipRows]
    | cons c cs => exact (ih cs).cons₂ r.1

/-- The softmax weights of the zipped rows are a sublist of the softmax
list. -/
theorem zipRows_conf_sublist :
    ∀ (rows : List (Int × ℚ)) (confs : List ℚ),
      ((NCOEngine.zipRows rows confs).map (fun p => p.2.2)).Sublist confs := by
  intro rows
  induction rows with
  | nil => intro confs; simp [NCOEngine.zipRows]
  | cons r rs ih =>
    intro confs
    cases confs with
    | nil => simp [NCOEngine.zipRows]
    | cons c cs => exact (ih cs).cons₂ c

/-- Distributing a division over a list sum. -/
theorem sum_map_div (l : List ℚ) (c : ℚ) :
    (l.map (fun x => x / c)).sum = l.sum / c := by
  induction l with
  | nil => simp
  | cons x xs ih => simp [ih, add_div]

/-- With a positive `exp`, the softmax denominator is positive on a
non-empty row. -/
theorem softmax_tot_pos {e : ℚ → ℚ} (he : ∀ x, 0 < e x)
    (scores : List ℚ) (hs : scores ≠ []) :
    0 < (scores.map (fun s => e (s - NCOEngine.npmax scores))).sum := by
  apply List.sum_pos
  · intro x hx
    obtain ⟨s, _, rfl⟩ := List.mem_map.mp hx
    exact he _
  · simpa [List.map_eq_nil_iff] using hs

/-- Every softmax weight lies in [0, 1]. -/
theorem softmaxList_mem_unit {e : ℚ → ℚ} (he : ∀ x, 0 < e x)
    (scores : List ℚ) :
    ∀ c ∈ NCOEngine.softmaxList e scores, 0 ≤ c ∧ c ≤ 1 := by
  intro c hc
  by_cases hs : scores = []
  · subst hs
    simp [NCOEngine.softmaxList] at hc
  · have htot := softmax_tot_pos he scores hs
    simp only [NCOEngine.softmaxList] at hc
    rw [if_pos (ne_of_gt htot)] at hc
    obtain ⟨x, hx, rfl⟩ := List.mem_map.mp hc
    constructor
    · obtain ⟨s, _, rfl⟩ := List.mem_map.mp hx
      exact div_nonneg (le_of_lt (he _)) (le_of_lt htot)
    · rw [div_le_one htot]
      exact List.single_le_sum
        (fun y hy => by
          obtain ⟨s, _, rfl⟩ := List.mem_map.mp hy
          exact le_of_lt (he _)) x hx

/-- The softmax weights sum to at most 1 (exactly 1 on a non-empty row). -/
theorem softmaxList_sum_le_one {e : ℚ → ℚ} (he : ∀ x, 0 < e x)
    (scores : List ℚ) :
    (NCOEngine.softmaxList e scores).sum ≤ 1 := by
  by_cases hs : scores = []
  · subst hs
    simp [NCOEngine.softmaxList]
  · have htot := softmax_tot_pos he scores hs
    simp only [NCOEngine.softmaxList]
    rw [if_pos (ne_of_gt htot), sum_map_div, div_self (ne_of_gt htot)]

/-- Every result built by the inner loop is either inherited from `acc`
or is `mkResult` of a non-negative row of the zipped reply. -/
theorem buildTemp_mem (occs : List Occupation) (k : ℕ) (df mf : Option String) :
    ∀ (rows : List (Int × ℚ × ℚ)) (acc : List SearchResult)
      (r : SearchResult),
      r ∈ NCOEngine.buildTemp occs k df mf rows acc →
      r ∈ acc ∨ ∃ p ∈ rows, 0 ≤ p.1 ∧
        r = NCOEngine.mkResult (occs.getD p.1.toNat defaultOcc) p.2.1 p.2.2 := by
  intro rows
  induction rows with
  | nil =>
    intro acc r hr
    exact Or.inl hr
  | cons row rest ih =>
    intro acc r hr
    unfold NCOEngine.buildTemp at hr
    by_cases hneg : row.1 < 0
    · rw [if_pos hneg] at hr
      rcases ih acc r hr with h | ⟨p, hp, h1, h2⟩
      · exact Or.inl h
      · exact Or.inr ⟨p, List.mem_cons_of_mem _ hp, h1, h2⟩
    · rw [if_neg hneg] at hr
      dsimp only at hr
      have hpos : 0 ≤ row.1 := Int.not_lt.mp hneg
      by_cases hfl :
          (NCOEngine.filterPass df ((occs.getD row.1.toNat
            defaultOcc).hierarchy.map (fun h => h.division_code)) = true ∧
           NCOEngine.filterPass mf ((occs.getD row.1.toNat
            defaultOcc).hierarchy.map (fun h => h.minor_group_code)) = true)
      · rw [if_pos hfl] at hr
        by_cases hlen : k ≤ (acc ++ [NCOEngine.mkResult
            (occs.getD row.1.toNat defaultOcc) row.2.1 row.2.2]).length
        · rw [if_pos hlen] at hr
          rcases List.mem_append.mp hr with h | h
          · exact Or.inl h
          · exact Or.inr ⟨row, List.mem_cons_self _ _, hpos, by simpa using h⟩
        · rw [if_neg hlen] at hr
          rcases ih _ r hr with h | ⟨p, hp, h1, h2⟩
          · rcases List.mem_append.mp h with h' | h'
            · exact Or.inl h'
            · exact Or.inr ⟨row, List.mem_cons_self _ _, hpos, by simpa using h'⟩
          · exact Or.inr ⟨p, List.mem_cons_of_mem _ hp, h1, h2⟩
      · rw [if_neg hfl] at hr
        rcases ih acc r hr with h | ⟨p, hp, h1, h2⟩
        · exact Or.inl h
        · exact Or.inr ⟨p, List.mem_cons_of_mem _ hp, h1, h2⟩

/-- The confidences produced by the inner loop extend `acc`'s by a sublist
of the zipped softmax weights. -/
theorem buildTemp_conf (occs : List Occupation) (k : ℕ) (df mf : Option String) :
    ∀ (rows : List (Int × ℚ × ℚ)) (acc : List SearchResult),
      ∃ t, (NCOEngine.buildTemp occs k df mf rows acc).map
          (fun r => r.confidence) =
        acc.map (fun r => r.confidence) ++ t ∧
        t.Sublist (rows.map (fun p => p.2.2)) := by
  intro rows
  induction rows with
  | nil =>
    intro acc
    exact ⟨[], by simp [NCOEngine.buildTemp], List.nil_sublist _⟩
  | cons row rest ih =>
    intro acc
    unfold NCOEngine.buildTemp
    by_cases hneg : row.1 < 0
    · rw [if_pos hneg]
      obtain ⟨t, ht, hs⟩ := ih acc
      exact ⟨t, ht, hs.cons _⟩
    · rw [if_neg hneg]
      dsimp only
      by_cases hfl :
          (NCOEngine.filterPass df ((occs.getD row.1.toNat
            defaultOcc).hierarchy.map (fun h => h.division_code)) = true ∧
           NCOEngine.filterPass mf ((occs.getD row.1.toNat
            defaultOcc).hierarchy.map (fun h => h.minor_group_code)) = true)
      · rw [if_pos hfl]
        by_cases hlen : k ≤ (acc ++ [NCOEngine.mkResult
            (occs.getD row.1.toNat defaultOcc) row.2.1 row.2.2]).length
        · rw [if_pos hlen]
          refine ⟨[row.2.2], by simp [NCOEngine.mkResult], ?_⟩
          exact (List.nil_sublist _).cons₂ _
        · rw [if_neg hlen]
          obtain ⟨t, ht, hs⟩ := ih (acc ++ [NCOEngine.mkResult
            (occs.getD row.1.toNat defaultOcc) row.2.1 row.2.2])
          refine ⟨row.2.2 :: t, ?_, hs.cons₂ _⟩
          rw [ht]
          simp [NCOEngine.mkResult]
      · rw [if_neg hfl]
        obtain ⟨t, ht, hs⟩ := ih acc
        exact ⟨t, ht, hs.cons _⟩

/-- Codes at distinct valid catalog positions differ when codes are
unique. -/
theorem code_getD_inj (occs : List Occupation)
    (hocc : (occs.map (fun o => o.nco_code)).Nodup)
    {i j : ℕ} (hi : i < occs.length) (hj : j < occs.length) (hij : i ≠ j) :
    (occs.getD i defaultOcc).nco_code ≠ (occs.getD j defaultOcc).nco_code := by
  intro h
  rw [List.getD_eq_getElem _ _ hi, List.getD_eq_getElem _ _ hj] at h
  have hi' : i < (occs.map (fun o => o.nco_code)).length := by simpa using hi
  have hj' : j < (occs.map (fun o => o.nco_code)).length := by simpa using hj
  have hg : (occs.map (fun o => o.nco_code)).get ⟨i, hi'⟩ =
      (occs.map (fun o => o.nco_code)).get ⟨j, hj'⟩ := by
    simp only [List.get_eq_getElem, List.getElem_map]
    exact h
  have := List.nodup_iff_injective_get.mp hocc hg
  exact hij (by simpa using congrArg Fin.val this)

/-- The inner loop never produces two results with the same code, as long
as the FAISS ids are distinct and valid and catalog codes are unique. -/
theorem buildTemp_nodup (occs : List Occupation) (k : ℕ) (df mf : Option String)
    (hocc : (occs.map (fun o => o.nco_code)).Nodup) :
    ∀ (rows : List (Int × ℚ × ℚ)) (acc : List SearchResult),
      (rows.map (fun p => p.1)).Nodup →
      (∀ i ∈ rows.map (fun p => p.1), 0 ≤ i → i.toNat < occs.length) →
      (acc.map (fun r => r.nco_code)).Nodup →
      (∀ p ∈ rows, 0 ≤ p.1 →
        (occs.getD p.1.toNat defaultOcc).nco_code ∉
          acc.map (fun r => r.nco_code)) →
      ((NCOEngine.buildTemp occs k df mf rows acc).map
        (fun r => r.nco_code)).Nodup := by
  intro rows
  induction rows with
  | nil =>
    intro acc _ _ hacc _
    exact hacc
  | cons row rest ih =>
    intro acc hnd hbnd hacc hdisj
    have hnd' : (rest.map (fun p => p.1)).Nodup :=
      (List.nodup_cons.mp hnd).2
    have hhead : row.1 ∉ rest.map (fun p => p.1) :=
      (List.nodup_cons.mp hnd).1
    have hbnd' : ∀ i ∈ rest.map (fun p => p.1), 0 ≤ i →
        i.toNat < occs.length :=
      fun i hi => hbnd i (List.mem_cons_of_mem _ hi)
    unfold NCOEngine.buildTemp
    by_cases hneg : row.1 < 0
    · rw [if_pos hneg]
      exact ih acc hnd' hbnd' hacc
        (fun p hp => hdisj p (List.mem_cons_of_mem _ hp))
    · rw [if_neg hneg]
      dsimp only
      have hpos : 0 ≤ row.1 := Int.not_lt.mp hneg
      have hrowbnd : row.1.toNat < occs.length :=
        hbnd row.1 (List.mem_cons_self _ _) hpos
      have hnewcode : (occs.getD row.1.toNat defaultOcc).nco_code ∉
          acc.map (fun r => r.nco_code) :=
        hdisj row (List.mem_cons_self _ _) hpos
      have hacc' : ((acc ++ [NCOEngine.mkResult
          (occs.getD row.1.toNat defaultOcc) row.2.1 row.2.2]).map
            (fun r => r.nco_code)).Nodup := by
        rw [List.map_append]
        exact nodup_append_single _ _ hacc hnewcode
      have hdisj' : ∀ p ∈ rest, 0 ≤ p.1 →
          (occs.getD p.1.toNat defaultOcc).nco_code ∉
            (acc ++ [NCOEngine.mkResult
              (occs.getD row.1.toNat defaultOcc) row.2.1 row.2.2]).map
              (fun r => r.nco_code) := by
        intro p hp hppos
        rw [List.map_append]
        intro hmem
        rcases List.mem_append.mp hmem with h | h
        · exact hdisj p (List.mem_cons_of_mem _ hp) hppos h
        · have hpbnd : p.1.toNat < occs.length :=
            hbnd' p.1 (List.mem_map_of_mem _ hp) hppos
          have hne : p.1.toNat ≠ row.1.toNat := by
            have : p.1 ≠ row.1 := by
              intro hcontra
              exact hhead (hcontra ▸ List.mem_map_of_mem _ hp)
            omega
          have := code_getD_inj occs hocc hpbnd hrowbnd hne
          simp only [NCOEngine.mkResult, List.map_cons, List.map_nil,
            List.mem_singleton] at h
          exact this h
      by_cases hfl :
          (NCOEngine.filterPass df ((occs.getD row.1.toNat
            defaultOcc).hierarchy.map (fun h => h.division_code)) = true ∧
           NCOEngine.filterPass mf ((occs.getD row.1.toNat
            defaultOcc).hierarchy.map (fun h => h.minor_group_code)) = true)
      · rw [if_pos hfl]
        by_cases hlen : k ≤ (acc ++ [NCOEngine.mkResult
            (occs.getD row.1.toNat defaultOcc) row.2.1 row.2.2]).length
        · rw [if_pos hlen]
          exact hacc'
        · rw [if_neg hlen]
          exact ih _ hnd' hbnd' hacc' hdisj'
      · rw [if_neg hfl]
        exact ih acc hnd' hbnd' hacc
          (fun p hp => hdisj p (List.mem_cons_of_mem _ hp))

/-- The confidences of one Stage A attempt form a sublist of the softmax
weights computed over the whole fetched reply. -/
theorem stageA_conf_sublist (E : NCOEngine) (q : String) (k : ℕ)
    (df mf : Option String) :
    ((NCOEngine.stageA E q k df mf).map (fun r => r.confidence)).Sublist
      (NCOEngine.softmaxList E.e
        ((E.idxSearch q (min (k * 3) E.num_occupations)).map Prod.snd)) := by
  unfold NCOEngine.stageA
  obtain ⟨t, ht, hs⟩ := buildTemp_conf E.occupations k df mf
    (NCOEngine.zipRows (E.idxSearch q (min (k * 3) E.num_occupations))
      (NCOEngine.softmaxList E.e
        ((E.idxSearch q (min (k * 3) E.num_occupations)).map Prod.snd))) []
  rw [ht]
  simp only [List.map_nil, List.nil_append]
  exact hs.trans (zipRows_conf_sublist _ _)

/-- Stage A result codes are pairwise distinct. -/
theorem stageA_codes_nodup (E : NCOEngine) (q : String) (k : ℕ)
    (df mf : Option String) (hv : E.ValidIndex) (hc : E.UniqueCodes) :
    ((NCOEngine.stageA E q k df mf).map (fun r => r.nco_code)).Nodup := by
  unfold NCOEngine.stageA
  apply buildTemp_nodup E.occupations k df mf hc
  · exact ((hv q _).1).sublist (zipRows_fst_sublist _ _)
  · intro i hi hpos
    exact (hv q _).2 i ((zipRows_fst_sublist _ _).mem hi) hpos
  · simp
  · intro p _ _
    simp

/-- Stage A result codes exist in the catalog. -/
theorem stageA_codes_mem (E : NCOEngine) (q : String) (k : ℕ)
    (df mf : Option String) (hv : E.ValidIndex) :
    ∀ r ∈ NCOEngine.stageA E q k df mf,
      r.nco_code ∈ E.occupations.map (fun o => o.nco_code) := by
  intro r hr
  unfold NCOEngine.stageA at hr
  rcases buildTemp_mem E.occupations k df mf _ [] r hr with h | ⟨p, hp, hpos, rfl⟩
  · simp at h
  · have hb : p.1.toNat < E.occupations.length :=
      (hv q _).2 p.1
        ((zipRows_fst_sublist _ _).mem (List.mem_map_of_mem (fun x => x.1) hp))
        hpos
    show (E.occupations.getD p.1.toNat defaultOcc).nco_code ∈ _
    rw [List.getD_eq_getElem _ _ hb]
    exact List.mem_map_of_mem _ (List.getElem_mem hb)

/-- The variant loop either keeps the `results` it was given or returns a
`k`-truncated Stage A answer of one of the variants. -/
theorem searchLoop_cases (E : NCOEngine) (k : ℕ) (df mf : Option String)
    (query : String) :
    ∀ (L : List String) (attempt : ℕ) (results : List SearchResult),
      NCOEngine.searchLoop E k df mf query L attempt results = results ∨
      ∃ q, NCOEngine.searchLoop E k df mf query L attempt results =
        (NCOEngine.stageA E q k df mf).take k := by
  intro L
  induction L with
  | nil =>
    intro attempt results
    exact Or.inl rfl
  | cons q rest ih =>
    intro attempt results
    unfold NCOEngine.searchLoop
    by_cases hskip : attempt ≠ 0 ∧ q = query
    · rw [if_pos hskip]
      exact ih _ _
    · rw [if_neg hskip]
      cases hA : NCOEngine.stageA E q k df mf with
      | nil =>
        dsimp only
        exact ih _ _
      | cons t ts =>
        dsimp only
        by_cases hconf : (1 : ℚ)/2 ≤ t.confidence
        · rw [if_pos hconf]
          right
          exact ⟨q, by rw [hA]⟩
        · rw [if_neg hconf]
          by_cases hres : results = []
          · rw [if_pos hres]
            rcases ih (attempt + 1) ((t :: ts).take k) with h | ⟨q', h⟩
            · right
              refine ⟨q, ?_⟩
              rw [hA]
              exact h
            · right
              exact ⟨q', h⟩
          · rw [if_neg hres]
            exact ih _ _

/-- The variant-loop output is empty or a `k`-truncated Stage A answer. -/
theorem vectorStage_cases (E : NCOEngine) (query : String) (k : ℕ)
    (df mf : Option String) :
    NCOEngine.vectorStage E query k df mf = [] ∨
    ∃ q, NCOEngine.vectorStage E query k df mf =
      (NCOEngine.stageA E q k df mf).take k :=
  searchLoop_cases E k df mf query _ 0 []

/-- Annotation only rewrites `matched_synonyms`. -/
theorem annotate_fields (E : NCOEngine) (query : String) (r : SearchResult) :
    (NCOEngine.annotate E query r).nco_code = r.nco_code ∧
    (NCOEngine.annotate E query r).confidence = r.confidence := by
  unfold NCOEngine.annotate
  cases E.code_lookup r.nco_code <;> exact ⟨rfl, rfl⟩

/-- Everything the merge loop returns was a prior result or a fallback
candidate. -/
theorem mergeFallback_mem (k : ℕ) :
    ∀ (cand : List SearchResult) (codes : List String)
      (results : List SearchResult) (r : SearchResult),
      r ∈ NCOEngine.mergeFallback k cand codes results →
      r ∈ results ∨ r ∈ cand := by
  intro cand
  induction cand with
  | nil =>
    intro codes results r hr
    exact Or.inl hr
  | cons c cs ih =>
    intro codes results r hr
    unfold NCOEngine.mergeFallback at hr
    by_cases h : c.nco_code ∉ codes ∧ results.length < k
    · rw [if_pos h] at hr
      rcases ih _ _ r hr with h' | h'
      · rcases List.mem_append.mp h' with h'' | h''
        · exact Or.inl h''
        · rw [List.mem_singleton] at h''
          right
          rw [h'']
          exact List.mem_cons_self _ _
      · right
        exact List.mem_cons_of_mem _ h'
    · rw [if_neg h] at hr
      rcases ih _ _ r hr with h' | h'
      · exact Or.inl h'
      · right
        exact List.mem_cons_of_mem _ h'

/-- The merge loop never grows the list beyond `k`. -/
theorem mergeFallback_length (k : ℕ) :
    ∀ (cand : List SearchResult) (codes : List String)
      (results : List SearchResult),
      results.length ≤ k →
      (NCOEngine.mergeFallback k cand codes results).length ≤ k := by
  intro cand
  induction cand with
  | nil =>
    intro codes results h
    exact h
  | cons c cs ih =>
    intro codes results h
    unfold NCOEngine.mergeFallback
    by_cases hc : c.nco_code ∉ codes ∧ results.length < k
    · rw [if_pos hc]
      apply ih
      have := hc.2
      rw [List.length_append, List.length_singleton]
      omega
    · rw [if_neg hc]
      exact ih _ _ h

/-- The merge loop preserves code uniqueness: the `codes` accumulator
contains every held code, and a candidate is only appended when unseen. -/
theorem mergeFallback_nodup (k : ℕ) :
    ∀ (cand : List SearchResult) (codes : List String)
      (results : List SearchResult),
      (results.map (fun r => r.nco_code)).Nodup →
      (∀ c ∈ results.map (fun r => r.nco_code), c ∈ codes) →
      ((NCOEngine.mergeFallback k cand codes results).map
        (fun r => r.nco_code)).Nodup := by
  intro cand
  induction cand with
  | nil =>
    intro codes results h _
    exact h
  | cons c cs ih =>
    intro codes results hnd hsub
    unfold NCOEngine.mergeFallback
    by_cases hc : c.nco_code ∉ codes ∧ results.length < k
    · rw [if_pos hc]
      apply ih
      · rw [List.map_append]
        refine nodup_append_single _ _ hnd ?_
        intro hmem
        exact hc.1 (hsub _ hmem)
      · intro x hx
        rw [List.map_append] at hx
        rcases List.mem_append.mp hx with h | h
        · exact List.mem_append_left _ (hsub x h)
        · rw [List.map_cons, List.map_nil, List.mem_singleton] at h
          rw [h]
          exact List.mem_append_right _ (List.mem_singleton_self _)
    · rw [if_neg hc]
      exact ih _ _ hnd hsub

/-- A `code_lookup` hit returns a catalog record carrying that code. -/
theorem code_lookup_mem {E : NCOEngine} {c : String} {occ : Occupation}
    (h : E.code_lookup c = some occ) :
    occ ∈ E.occupations ∧ occ.nco_code = c := by
  unfold NCOEngine.code_lookup at h
  refine ⟨List.mem_reverse.mp (List.mem_of_find?_eq_some h), ?_⟩
  have := List.find?_some h
  simpa using this

/-- A `title_index` hit returns a catalog record. -/
theorem title_index_mem {E : NCOEngine} {t : String} {occ : Occupation}
    (h : E.title_index t = some occ) : occ ∈ E.occupations := by
  unfold NCOEngine.title_index at h
  exact List.mem_reverse.mp (List.mem_of_find?_eq_some h)

/-- Keyword-fallback results carry confidence 1/4 and a catalog code. -/
theorem keyword_fallback_mem (E : NCOEngine) (query : String) :
    ∀ r ∈ NCOEngine.keyword_fallback E query,
      r.confidence = 1/4 ∧
      r.nco_code ∈ E.occupations.map (fun o => o.nco_code) := by
  intro r hr
  unfold NCOEngine.keyword_fallback at hr
  rw [List.mem_filterMap] at hr
  obtain ⟨cs, _, hf⟩ := hr
  cases hocc : E.code_lookup cs.1 with
  | none =>
    rw [hocc] at hf
    simp at hf
  | some occ =>
    rw [hocc] at hf
    injection hf with hf
    subst hf
    obtain ⟨hm, hcode⟩ := code_lookup_mem hocc
    dsimp only
    exact ⟨rfl, hcode ▸ List.mem_map_of_mem _ hm⟩

/-- Fuzzy-fallback results carry confidence 1/5 and a catalog code. -/
theorem fuzzy_fallback_mem (E : NCOEngine) (query : String) :
    ∀ r ∈ NCOEngine.fuzzy_fallback E query,
      r.confidence = 1/5 ∧
      r.nco_code ∈ E.occupations.map (fun o => o.nco_code) := by
  intro r hr
  unfold NCOEngine.fuzzy_fallback at hr
  rw [List.mem_filterMap] at hr
  obtain ⟨t, _, hf⟩ := hr
  cases hocc : E.title_index t with
  | none =>
    rw [hocc] at hf
    simp at hf
  | some occ =>
    rw [hocc] at hf
    injection hf with hf
    subst hf
    dsimp only
    exact ⟨rfl, List.mem_map_of_mem _ (title_index_mem hocc)⟩

/-! ## C3 — confidence range and mass -/

/-- The variant-loop results have confidences in [0, 1] summing to at most
1 (the softmax is taken over the whole fetched reply, of which the kept
results are a sublist). -/
theorem vectorStage_conf_spec (E : NCOEngine) (query : String) (k : ℕ)
    (df mf : Option String) (he : E.PosExp) :
    (∀ r ∈ NCOEngine.vectorStage E query k df mf,
      0 ≤ r.confidence ∧ r.confidence ≤ 1) ∧
    ((NCOEngine.vectorStage E query k df mf).map
      (fun r => r.confidence)).sum ≤ 1 := by
  rcases vectorStage_cases E query k df mf with h | ⟨q, h⟩ <;> rw [h]
  · refine ⟨?_, by simp⟩
    intro r hr
    simp at hr
  · have hsub : (((NCOEngine.stageA E q k df mf).take k).map
        (fun r => r.confidence)).Sublist
        (NCOEngine.softmaxList E.e
          ((E.idxSearch q (min (k * 3) E.num_occupations)).map Prod.snd)) := by
      rw [List.map_take]
      exact (List.take_sublist _ _).trans (stageA_conf_sublist E q k df mf)
    constructor
    · intro r hr
      exact softmaxList_mem_unit he _ _
        (List.Sublist.mem (List.mem_map_of_mem (fun r => r.confidence) hr) hsub)
    · refine le_trans (List.Sublist.sum_le_sum hsub ?_)
        (softmaxList_sum_le_one he _)
      intro a ha
      exact (softmaxList_mem_unit he _ a ha).1

/-- C3, amended.  Every returned confidence lies in [0, 1]; the
confidences of the variant-loop (vector-stage) results sum to at most 1 —
but not to exactly 1 in general, because the softmax is computed over the
whole fetched `3k`-candidate reply rather than the retained results, and
fallback results carry the fixed confidences 1/4 and 1/5, which can push
the total of a returned list above 1. -/
theorem C3_theorem (E : NCOEngine) (query : String) (k : ℕ)
    (df mf : Option String) (he : E.PosExp) :
    (∀ r ∈ NCOEngine.search E query k df mf,
      0 ≤ r.confidence ∧ r.confidence ≤ 1) ∧
    ((NCOEngine.vectorStage E query k df mf).map
      (fun r => r.confidence)).sum ≤ 1 := by
  obtain ⟨hmem, hsum⟩ := vectorStage_conf_spec E query k df mf he
  refine ⟨?_, hsum⟩
  intro r hr
  simp only [NCOEngine.search] at hr
  rw [List.mem_map] at hr
  obtain ⟨r', hr', rfl⟩ := hr
  rw [(annotate_fields E query r').2]
  by_cases hg : NCOEngine.fallbackGate
      (NCOEngine.vectorStage E query k df mf) = true
  · rw [if_pos hg] at hr'
    rcases mergeFallback_mem k _ _ _ r' hr' with h | h
    · exact hmem r' h
    · rcases List.mem_append.mp h with h' | h'
      · rw [(keyword_fallback_mem E query r' h').1]
        norm_num
      · rw [(fuzzy_fallback_mem E query r' h').1]
        norm_num
  · rw [if_neg hg] at hr'
    exact hmem r' hr'

/-- C3, counterexample.  With three records at equal similarity and
`k = 1`, the softmax runs over the three fetched candidates but only one
is returned: the fallback stage does not fire (top confidence 1/3 ≥ 0.3)
and contributes nothing anyway, so all returned results come from the
vector stage, yet their confidences sum to 1/3 ≠ 1.  (Only `exp 0` is
evaluated here, and `exp 0 = 1`, so the oracle agrees with the true
exponential at every evaluated point.) -/
theorem C3_counterexample :
    NCOEngine.search E3 "qq" 1 none none =
      [NCOEngine.mkResult (mkOcc "0001.0001" "aaa") (9/10) (1/3)] ∧
    NCOEngine.fallbackGate (NCOEngine.vectorStage E3 "qq" 1 none none) = false ∧
    NCOEngine.keyword_fallback E3 "qq" = [] ∧
    NCOEngine.fuzzy_fallback E3 "qq" = [] ∧
    ((NCOEngine.search E3 "qq" 1 none none).map
      (fun r => r.confidence)).sum = 1/3 ∧
    ¬ ((1 : ℚ)/3 = 1) := by
  with_unfolding_all decide

/-- C3, witness for the amended theorem at the concrete engine `E3`. -/
theorem C3_witness :
    (∀ r ∈ NCOEngine.search E3 "qq" 1 none none,
      0 ≤ r.confidence ∧ r.confidence ≤ 1) ∧
    ((NCOEngine.vectorStage E3 "qq" 1 none none).map
      (fun r => r.confidence)).sum ≤ 1 :=
  C3_theorem E3 "qq" 1 none none (fun x => by show (0 : ℚ) < 1; norm_num)

/-! ## C5 — length, duplicate-freedom and catalog membership -/

/-- The variant-loop results satisfy all three invariants. -/
theorem vectorStage_spec (E : NCOEngine) (query : String) (k : ℕ)
    (df mf : Option String) (hv : E.ValidIndex) (hc : E.UniqueCodes) :
    (NCOEngine.vectorStage E query k df mf).length ≤ k ∧
    ((NCOEngine.vectorStage E query k df mf).map
      (fun r => r.nco_code)).Nodup ∧
    (∀ r ∈ NCOEngine.vectorStage E query k df mf,
      r.nco_code ∈ E.occupations.map (fun o => o.nco_code)) := by
  rcases vectorStage_cases E query k df mf with h | ⟨q, h⟩ <;> rw [h]
  · refine ⟨by simp, by simp, ?_⟩
    intro r hr
    simp at hr
  · refine ⟨?_, ?_, ?_⟩
    · rw [List.length_take]
      exact min_le_left _ _
    · rw [List.map_take]
      exact List.Nodup.sublist (List.take_sublist _ _)
        (stageA_codes_nodup E q k df mf hv hc)
    · intro r hr
      exact stageA_codes_mem E q k df mf hv r
        (List.Sublist.mem hr (List.take_sublist _ _))

/-- C5.  For every query and `k ∈ [1, 20]` (given unique catalog codes and
a valid index reply), the returned list has length at most `k`, contains
no two results with the same code, and every returned code belongs to a
catalog record. -/
theorem C5_theorem (E : NCOEngine) (query : String) (k : ℕ)
    (df mf : Option String) (_hk : 1 ≤ k ∧ k ≤ 20)
    (hv : E.ValidIndex) (hc : E.UniqueCodes) :
    (NCOEngine.search E query k df mf).length ≤ k ∧
    ((NCOEngine.search E query k df mf).map (fun r => r.nco_code)).Nodup ∧
    (∀ r ∈ NCOEngine.search E query k df mf,
      r.nco_code ∈ E.occupations.map (fun o => o.nco_code)) := by
  obtain ⟨hlen, hnd, hmem⟩ := vectorStage_spec E query k df mf hv hc
  have key : ∀ m : List SearchResult,
      m.length ≤ k → (m.map (fun r => r.nco_code)).Nodup →
      (∀ r ∈ m, r.nco_code ∈ E.occupations.map (fun o => o.nco_code)) →
      (m.map (NCOEngine.annotate E query)).length ≤ k ∧
      ((m.map (NCOEngine.annotate E query)).map (fun r => r.nco_code)).Nodup ∧
      (∀ r ∈ m.map (NCOEngine.annotate E query),
        r.nco_code ∈ E.occupations.map (fun o => o.nco_code)) := by
    intro m h1 h2 h3
    have hmap : (m.map (NCOEngine.annotate E query)).map (fun r => r.nco_code) =
        m.map (fun r => r.nco_code) := by
      rw [List.map_map]
      apply List.map_congr_left
      intro r _
      exact (annotate_fields E query r).1
    refine ⟨by simpa using h1, by rw [hmap]; exact h2, ?_⟩
    intro r hr
    rw [List.mem_map] at hr
    obtain ⟨r', hr', rfl⟩ := hr
    rw [(annotate_fields E query r').1]
    exact h3 r' hr'
  simp only [NCOEngine.search]
  by_cases hg : NCOEngine.fallbackGate
      (NCOEngine.vectorStage E query k df mf) = true
  · rw [if_pos hg]
    apply key
    · exact mergeFallback_length k _ _ _ hlen
    · exact mergeFallback_nodup k _ _ _ hnd (fun c hcm => hcm)
    · intro r hr
      rcases mergeFallback_mem k _ _ _ r hr with h | h
      · exact hmem r h
      · rcases List.mem_append.mp h with h' | h'
        · exact (keyword_fallback_mem E query r h').2
        · exact (fuzzy_fallback_mem E query r h').2
  · rw [if_neg hg]
    exact key _ hlen hnd hmem

/-- C5, witness at the concrete engine `E3` with `k = 1`. -/
theorem C5_witness :
    (NCOEngine.search E3 "qq" 1 none none).length ≤ 1 ∧
    ((NCOEngine.search E3 "qq" 1 none none).map (fun r => r.nco_code)).Nodup ∧
    (∀ r ∈ NCOEngine.search E3 "qq" 1 none none,
      r.nco_code ∈ E3.occupations.map (fun o => o.nco_code)) :=
  C5_theorem E3 "qq" 1 none none ⟨by norm_num, by norm_num⟩
    (fun q m =>
      ⟨by show ([0, 1, 2] : List Int).Nodup; decide,
       by
        show ∀ i ∈ ([0, 1, 2] : List Int), 0 ≤ i → i.toNat < 3
        decide⟩)
    (by
      show (["0001.0001", "0002.0002", "0003.0003"] : List String).Nodup
      with_unfolding_all decide)

end NCO
